import Mathlib

/-!
Verification development for the floki-proxy repository (Go).

Strings are embedded as `List Char` (Go strings are byte/rune sequences; all
configuration syntax here is ASCII).  Go's `map[string]int` is embedded as an
association list with in-place-update insertion, which realises the map's
lookup/overwrite semantics while fixing one iteration order; properties that
depend on iteration order are quantified over permutations of that list.
Machine integers: Go `int` values appearing here (status codes, rates,
`strconv.Atoi` results) are embedded as `Int` (overflow of 64-bit `int` is not
reached by any claim considered); Go `uint64` counter cells wrap modulo `2^64`,
written explicitly.
-/

namespace FlokiProxy

abbrev Str := List Char

/-- Go `strings.Split(s, sep)` for a single-character separator:
the result has one piece more than the number of separators, and
`Split("", sep) = [""]`. -/
def splitOn (sep : Char) : Str → List Str
  | [] => [[]]
  | c :: rest =>
      match splitOn sep rest with
      | [] => [[]]
      | p :: ps => if c = sep then [] :: p :: ps else (c :: p) :: ps

/-- Go `strings.Join(parts, sep)` for a single-character separator. -/
def joinSep (sep : Char) : List Str → Str
  | [] => []
  | [p] => p
  | p :: q :: ps => p ++ sep :: joinSep sep (q :: ps)

/-- Numeric value of an ASCII digit character, as checked by `strconv.Atoi`
(`'0' <= ch && ch <= '9'`). -/
def digToNat (c : Char) : Option Nat :=
  if '0' ≤ c ∧ c ≤ '9' then some (c.toNat - 48) else none

/-- Accumulating decimal scan over a digit string (the core loop of
`strconv.Atoi` after sign handling). -/
def digitsValAux (acc : Nat) : Str → Option Nat
  | [] => some acc
  | c :: rest =>
      match digToNat c with
      | some d => digitsValAux (acc * 10 + d) rest
      | none => none

/-- Value of a non-empty all-digit string; `none` on the empty string or any
non-digit character. -/
def digitsVal (s : Str) : Option Nat :=
  if s.isEmpty then none else digitsValAux 0 s

/-- Go `strconv.Atoi`: optional single leading sign, then a non-empty run of
decimal digits.  (Go additionally errors when the value overflows a 64-bit
`int`; no claim here reaches that range, so the value is kept exact.) -/
def atoi (s : Str) : Option Int :=
  match s with
  | [] => none
  | c :: rest =>
      if c = '-' then (digitsVal rest).map (fun n => -(n : Int))
      else if c = '+' then (digitsVal rest).map (fun n => (n : Int))
      else (digitsVal (c :: rest)).map (fun n => (n : Int))

/-- The ASCII digit with value `d` (for `d < 10`). -/
def digChar : Nat → Char
  | 0 => '0' | 1 => '1' | 2 => '2' | 3 => '3' | 4 => '4'
  | 5 => '5' | 6 => '6' | 7 => '7' | 8 => '8' | 9 => '9'
  | _ => '*'

/-- Decimal digits of `n`, most significant first (the digits `fmt.Sprintf`'s
`%d` verb prints for a non-negative value). -/
def natDigits (n : Nat) : Str :=
  if _h : n < 10 then [digChar n]
  else natDigits (n / 10) ++ [digChar (n % 10)]
  termination_by n
  decreasing_by
    exact Nat.div_lt_self (by omega) (by omega)

/-- The text `fmt.Sprintf("%d", v)` prints for a (64-bit) integer `v`. -/
def intRepr (v : Int) : Str :=
  if v < 0 then '-' :: natDigits v.natAbs else natDigits v.toNat

/-- `types.FailingPrefixCode` (`map[string]int`), embedded as an association
list with unique keys; list order stands for one map iteration order. -/
abbrev FailingPrefixCode := List (Str × Int)

/-- Map lookup on the association-list embedding. -/
def lookupA (m : FailingPrefixCode) (k : Str) : Option Int :=
  match m with
  | [] => none
  | p :: rest => if p.1 = k then some p.2 else lookupA rest k

/-- Map store `m[k] = v` on the association-list embedding: overwrite in
place if `k` is present, append otherwise. -/
def insertA (m : FailingPrefixCode) (k : Str) (v : Int) : FailingPrefixCode :=
  match m with
  | [] => [(k, v)]
  | p :: rest => if p.1 = k then (k, v) :: rest else p :: insertA rest k v

/-- The two error sites of `FailingPrefixCode.Set`: an entry that does not
split on `:` into exactly two fields, and a second field `strconv.Atoi`
rejects. -/
inductive SetErr where
  | decodeErr
  | atoiErr
deriving DecidableEq, Repr

/-- The body of the `for _, e := range tks` loop of `FailingPrefixCode.Set`,
threading the local map `m`. -/
def buildTableAux (m : FailingPrefixCode) : List Str → Except SetErr FailingPrefixCode
  | [] => .ok m
  | e :: rest =>
      match splitOn ':' e with
      | [k, cs] =>
          match atoi cs with
          | some code => buildTableAux (insertA m k code) rest
          | none => .error .atoiErr
      | _ => .error .decodeErr

/-- The map built by `FailingPrefixCode.Set` from the `;`-split entries. -/
def buildTable (es : List Str) : Except SetErr FailingPrefixCode :=
  buildTableAux [] es

/-- `FailingPrefixCode.Set`: the receiver is passed and returned explicitly
(the Go method writes `*fp` only by the single `*fp = m` after the loop, so
every error path returns the receiver unchanged). -/
def FailingPrefixCode.Set (fp : FailingPrefixCode) (x : Str) :
    FailingPrefixCode × Option SetErr :=
  if x = [] then (fp, none)
  else
    match buildTable (splitOn ';' x) with
    | .ok m => (m, none)
    | .error e => (fp, some e)

/-- Parsing a prefix table from scratch, as `flag.Var` does: `Set` applied to
the zero-value (empty) receiver; `none` when `Set` reports an error. -/
def FailingPrefixCode.Parse (x : Str) : Option FailingPrefixCode :=
  match FailingPrefixCode.Set [] x with
  | (t, none) => some t
  | (_, some _) => none

/-- `fmt.Sprintf("%s:%d", k, v)` for one table pair. -/
def entryStr (p : Str × Int) : Str :=
  p.1 ++ ':' :: intRepr p.2

/-- `FailingPrefixCode.String`: each pair printed as `%s:%d`, joined by `;`,
in the embedding's iteration order. -/
def FailingPrefixCode.String (fp : FailingPrefixCode) : Str :=
  joinSep ';' (fp.map entryStr)

/-- Per-entry parse outcome of `Set`'s loop, kept as a list (no map
overwrite), to state which occurrence of a duplicated prefix wins. -/
def parseEntries : List Str → Option (List (Str × Int))
  | [] => some []
  | e :: rest =>
      match splitOn ':' e with
      | [k, cs] =>
          match atoi cs with
          | some code => (parseEntries rest).map (fun ps => (k, code) :: ps)
          | none => none
      | _ => none

/-- `types.MethodCounters.data` (`map[string]uint64`): a missing key reads as
`0`, as in Go. -/
abbrev MethodCounters := String → Nat

/-- `MethodCounters.Add`: `old := data[method]; data[method] = old + v`, the
`uint64` addition wrapping modulo `2^64`. -/
def MethodCounters.Add (mc : MethodCounters) (method : String) (v : Nat) :
    MethodCounters :=
  fun m => if m = method then (mc method + v) % 2 ^ 64 else mc m

namespace Main1

/-!
Embedding of the current `main.go` (handler with transfer-failure injection
and per-method counters).  The sources of nondeterminism a request meets —
the `mathrand.Intn(100)` draws, whether `http.NewRequestWithContext` or
`http.DefaultClient.Do` fail, the upstream response and the per-iteration
`Read`/`Write` outcomes of its body stream — are inputs of the embedding.
-/

/-- `shouldFail(fRate)` of the current `main.go`, with the global variable
`failureRate` it reads and the `mathrand.Intn(100)` draw made explicit.
The source compares the draw against the global `failureRate`, not against
its `fRate` parameter. -/
def shouldFail (failureRate : Int) (fRate : Int) (draw : Nat) : Bool :=
  if fRate = 0 then false
  else if fRate = 100 then true
  else (draw : Int) < failureRate

/-- `shouldFailByPrefix(path)`: first table entry (in the embedding's
iteration order) whose prefix is a prefix of `path`; `(0, false)` otherwise. -/
def shouldFailByPrefix (failWithPrefix : FailingPrefixCode) (path : Str) :
    Int × Bool :=
  match failWithPrefix with
  | [] => (0, false)
  | p :: rest =>
      if p.1.isPrefixOf path then (p.2, true)
      else shouldFailByPrefix rest path

/-- Outcome of one `resp.Body.Read(buf)` call: `ok` is a nil error, `eof` is
`io.EOF`, `fail` any other error.  The source's loop tests only `err != nil`,
so it cannot tell `eof` from `fail`. -/
inductive ReadRes where
  | ok
  | eof
  | fail
deriving DecidableEq, Repr

/-- One iteration of the streaming loop: the bytes the `Read` returned
(at most 4096), its error class, whether the `w.Write` succeeded, and the
`mathrand.Intn(100)` draw of the transfer-failure check. -/
structure ChunkEv where
  bytes : List Nat
  readRes : ReadRes
  writeOk : Bool
  draw : Nat
deriving DecidableEq, Repr

/-- The `for { ... }` streaming loop of the current `mainHandler`: write the
chunk, break on write error, break on read error (`io.EOF` included), break
when the transfer-failure check fires.  Returns the bytes delivered and the
final `errorTransfer`; `none` when the given iteration list ends without a
break (the source loop would keep reading). -/
def streamLoop (failureRate failureTransferRate : Int) (acc : List Nat) :
    List ChunkEv → Option (List Nat × Bool)
  | [] => none
  | ev :: rest =>
      let acc2 := if ev.writeOk then acc ++ ev.bytes else acc
      if ev.writeOk = false then some (acc2, true)
      else if ev.readRes ≠ ReadRes.ok then some (acc2, true)
      else if shouldFail failureRate failureTransferRate ev.draw then some (acc2, true)
      else streamLoop failureRate failureTransferRate acc2 rest

/-- The startup configuration the handler reads from globals. -/
structure Config where
  failureRate : Int
  failureTransferRate : Int
  failWithPrefix : FailingPrefixCode

/-- The upstream response when `http.DefaultClient.Do` succeeds: its status
code and the iteration outcomes of streaming its body. -/
structure Upstream where
  statusCode : Int
  events : List ChunkEv

/-- One inbound request together with the nondeterministic outcomes its
handling meets. -/
structure HInput where
  method : String
  path : Str
  globalDraw : Nat
  newReqErr : Bool
  upstream : Option Upstream

/-- Terminal state of the handler, following the spec's state names. -/
inductive HExit where
  | failedGlobal
  | failedPrefix (code : Int)
  | newReqErr
  | doErr
  | streamed (written : List Nat) (errorTransfer : Bool)
  | hung
deriving DecidableEq, Repr

/-- The final `log.WithField(...)` record of the streaming path: the
`error-transfer` field and whether the line is emitted at Info level
(`resp.StatusCode == http.StatusOK && !errorTransfer`) rather than Warn. -/
structure LogLine where
  method : String
  errorTransfer : Bool
  infoLevel : Bool
deriving DecidableEq, Repr

/-- What one `mainHandler` call did: the `WriteHeader` arguments in order,
the method counters after the call, the body bytes delivered, the terminal
state, and the final structured log line (streaming path only). -/
structure HResult where
  writes : List Int
  counters : MethodCounters
  body : List Nat
  exitSt : HExit
  finalLog : Option LogLine

/-- `mainHandler` of the current `main.go`. -/
def mainHandler (cfg : Config) (cnt : MethodCounters) (inp : HInput) : HResult :=
  if shouldFail cfg.failureRate cfg.failureRate inp.globalDraw then
    ⟨[500], cnt, [], .failedGlobal, none⟩
  else
    match shouldFailByPrefix cfg.failWithPrefix inp.path with
    | (statusCode, true) => ⟨[statusCode], cnt, [], .failedPrefix statusCode, none⟩
    | (_, false) =>
      let cnt2 := MethodCounters.Add cnt inp.method 1
      if inp.newReqErr then ⟨[500], cnt2, [], .newReqErr, none⟩
      else
        match inp.upstream with
        | none => ⟨[500], cnt2, [], .doErr, none⟩
        | some u =>
            match streamLoop cfg.failureRate cfg.failureTransferRate [] u.events with
            | none => ⟨[u.statusCode], cnt2, [], .hung, none⟩
            | some (body, errorTransfer) =>
                ⟨[u.statusCode], cnt2, body, .streamed body errorTransfer,
                 some ⟨inp.method, errorTransfer,
                       decide (u.statusCode = 200) && !errorTransfer⟩⟩

end Main1

namespace Main2

/-!
Embedding of the earlier `main.go` variant whose handler omits the `return`
after writing 500 on an `http.DefaultClient.Do` error: execution then reaches
`defer resp.Body.Close()`, which evaluates `resp.Body` on the nil response at
the defer statement and panics.  Its `shouldFail` compares a standard-normal
sample against `failureRate/100`; the comparison's outcome is an input here.
-/

/-- `shouldFail()` of the variant: `0` never fails, `100` always fails,
otherwise the result of `mathrand.NormFloat64() < float64(failureRate)/100`
(taken as an input, `normCmp`). -/
def shouldFail (failureRate : Int) (normCmp : Bool) : Bool :=
  if failureRate = 0 then false
  else if failureRate = 100 then true
  else normCmp

/-- `shouldFailByPrefix(path)` of the variant: single string prefix, empty
means disabled. -/
def shouldFailByPrefix (failWithPrefix : Str) (path : Str) : Bool :=
  if failWithPrefix = [] then false
  else failWithPrefix.isPrefixOf path

/-- The variant's streaming loop: break on write error or read error
(`io.EOF` included); no transfer-failure injection.  `none` when the
iteration list ends without a break. -/
def streamLoop (acc : List Nat) : List Main1.ChunkEv → Option (List Nat)
  | [] => none
  | ev :: rest =>
      let acc2 := if ev.writeOk then acc ++ ev.bytes else acc
      if ev.writeOk = false then some acc2
      else if ev.readRes ≠ Main1.ReadRes.ok then some acc2
      else streamLoop acc2 rest

/-- Terminal state of the variant handler; `panicNilDeref` is the nil-pointer
dereference of `resp.Body` on the `Do`-error path. -/
inductive HExit where
  | failedGlobal
  | failedPrefix
  | newReqErr
  | panicNilDeref
  | streamed (written : List Nat)
  | hung
deriving DecidableEq, Repr

/-- The variant's startup configuration. -/
structure Config where
  failureRate : Int
  failWithPrefix : Str

/-- One inbound request for the variant, with its nondeterministic outcomes. -/
structure HInput where
  path : Str
  globalNormCmp : Bool
  newReqErr : Bool
  upstream : Option Main1.Upstream

/-- What one call of the variant `mainHandler` did: `WriteHeader` arguments
in order and the terminal state. -/
structure HResult where
  writes : List Int
  exitSt : HExit
deriving DecidableEq, Repr

/-- `mainHandler` of the variant.  On the `Do`-error path the handler writes
500, does not return, and panics evaluating `resp.Body` in the defer
statement — before the second `WriteHeader` is reached. -/
def mainHandler (cfg : Config) (inp : HInput) : HResult :=
  if shouldFail cfg.failureRate inp.globalNormCmp then ⟨[500], .failedGlobal⟩
  else if shouldFailByPrefix cfg.failWithPrefix inp.path then ⟨[500], .failedPrefix⟩
  else if inp.newReqErr then ⟨[500], .newReqErr⟩
  else
    match inp.upstream with
    | none => ⟨[500], .panicNilDeref⟩
    | some u =>
        match streamLoop [] u.events with
        | none => ⟨[u.statusCode], .hung⟩
        | some body => ⟨[u.statusCode], .streamed body⟩

end Main2

namespace Store

/-!
Embedding of `storeBody` from the body-buffering variant: the inbound body is
a sequence of read outcomes, the temporary file an explicit record.
-/

/-- One outcome of reading the inbound body inside `io.CopyBuffer`: a chunk
of at most the buffer's size, or a read error; the end of the list is
`io.EOF`. -/
inductive ReadEv where
  | chunk (bs : List Nat)
  | fail
deriving DecidableEq, Repr

/-- The temporary file: its bytes, the handle's offset, and whether it has
been fsynced, closed, removed. -/
structure TempFile where
  content : List Nat
  offset : Nat
  synced : Bool
  closed : Bool
  removed : Bool
deriving DecidableEq, Repr

/-- `buf := make([]byte, 1*1024*1024)` — the copy buffer's size. -/
def storeBodyBufLen : Nat := 1 * 1024 * 1024

/-- Bytes of the full inbound body (all chunks; meaningful when no read
fails). -/
def bodyBytes : List ReadEv → List Nat
  | [] => []
  | .chunk bs :: rest => bs ++ bodyBytes rest
  | .fail :: rest => bodyBytes rest

/-- Whether some read of the body fails before `io.EOF`. -/
def hasReadFail : List ReadEv → Bool
  | [] => false
  | .chunk _ :: rest => hasReadFail rest
  | .fail :: _ => true

/-- `io.CopyBuffer(f, body, buf)`: append each chunk to the file until
`io.EOF` (success) or a read error; returns the written bytes and the error
flag. -/
def copyBuffer (dst : List Nat) : List ReadEv → List Nat × Bool
  | [] => (dst, false)
  | .chunk bs :: rest => copyBuffer (dst ++ bs) rest
  | .fail :: _ => (dst, true)

/-- The failure points `storeBody` meets, besides read errors inside the
copy: `ioutil.TempFile`, `f.Sync()`, `f.Seek(0, io.SeekStart)`. -/
structure StoreInput where
  createFails : Bool
  reads : List ReadEv
  syncFails : Bool
  seekFails : Bool

/-- `closeFn`: `f.Close()` then `os.Remove(f.Name())`. -/
def closeFn (f : TempFile) : TempFile :=
  { f with closed := true, removed := true }

/-- `storeBody`: stage the body into a fresh temporary file, fsync, rewind.
On success, `.ok` with the byte count and the file; on failure, `.error`
with the file's final state (`none` when `TempFile` itself failed and there
is no file). -/
def storeBody (inp : StoreInput) : Except (Option TempFile) (Int × TempFile) :=
  if inp.createFails then .error none
  else
    let r := copyBuffer [] inp.reads
    let f1 : TempFile := ⟨r.1, r.1.length, false, false, false⟩
    if r.2 then .error (some (closeFn f1))
    else if inp.syncFails then .error (some (closeFn f1))
    else if inp.seekFails then .error (some (closeFn { f1 with synced := true }))
    else .ok ((r.1.length : Int), { f1 with synced := true, offset := 0 })

end Store

/-! ### Facts about `splitOn` and `joinSep` -/

theorem splitOn_ne_nil (sep : Char) (s : Str) : splitOn sep s ≠ [] := by
  induction s with
  | nil => simp [splitOn]
  | cons c rest ih =>
      simp only [splitOn]
      cases h : splitOn sep rest with
      | nil => simp
      | cons p ps => by_cases hc : c = sep <;> simp [hc]

theorem splitOn_eq_cons (sep : Char) (s : Str) :
    ∃ p ps, splitOn sep s = p :: ps := by
  cases h : splitOn sep s with
  | nil => exact absurd h (splitOn_ne_nil sep s)
  | cons p ps => exact ⟨p, ps, rfl⟩

theorem chars_of_mem_splitOn {sep : Char} {s p : Str}
    (hp : p ∈ splitOn sep s) : ∀ c ∈ p, c ∈ s ∧ c ≠ sep := by
  induction s generalizing p with
  | nil =>
      simp [splitOn] at hp
      subst hp
      intro c hc
      simp at hc
  | cons a rest ih =>
      obtain ⟨q, qs, hq⟩ := splitOn_eq_cons sep rest
      simp only [splitOn, hq] at hp
      by_cases ha : a = sep
      · rw [if_pos ha] at hp
        intro c hc
        have hmem : p ∈ splitOn sep rest := by
          rw [hq]
          rcases List.mem_cons.mp hp with h1 | h1
          · subst h1; simp at hc
          · exact h1
        have h2 := ih hmem c hc
        exact ⟨List.mem_cons_of_mem a h2.1, h2.2⟩
      · rw [if_neg ha] at hp
        rcases List.mem_cons.mp hp with h1 | h1
        · subst h1
          intro c hc
          rcases List.mem_cons.mp hc with hceq | hc2
          · rw [hceq]; exact ⟨List.mem_cons_self a rest, ha⟩
          · have hqmem : q ∈ splitOn sep rest := by
              rw [hq]; exact List.mem_cons_self q qs
            have h2 := ih hqmem c hc2
            exact ⟨List.mem_cons_of_mem a h2.1, h2.2⟩
        · have hmem : p ∈ splitOn sep rest := by
            rw [hq]; exact List.mem_cons_of_mem q h1
          intro c hc
          have h2 := ih hmem c hc
          exact ⟨List.mem_cons_of_mem a h2.1, h2.2⟩

theorem sep_not_mem_of_mem_splitOn {sep : Char} {s p : Str}
    (hp : p ∈ splitOn sep s) : sep ∉ p := by
  intro hmem
  exact (chars_of_mem_splitOn hp sep hmem).2 rfl

theorem splitOn_of_not_mem {sep : Char} {s : Str} (h : sep ∉ s) :
    splitOn sep s = [s] := by
  induction s with
  | nil => rfl
  | cons c rest ih =>
      simp only [List.mem_cons] at h
      push_neg at h
      simp only [splitOn, ih h.2]
      rw [if_neg (fun he => h.1 he.symm)]

theorem splitOn_append_sep {sep : Char} {a : Str} (b : Str) (h : sep ∉ a) :
    splitOn sep (a ++ sep :: b) = a :: splitOn sep b := by
  induction a with
  | nil =>
      obtain ⟨p, ps, hp⟩ := splitOn_eq_cons sep b
      simp [splitOn, hp]
  | cons c rest ih =>
      simp only [List.mem_cons] at h
      push_neg at h
      simp only [List.cons_append, splitOn, List.append_eq, ih h.2]
      rw [if_neg (fun he => h.1 he.symm)]

theorem splitOn_joinSep {sep : Char} {ps : List Str} (hne : ps ≠ [])
    (h : ∀ p ∈ ps, sep ∉ p) : splitOn sep (joinSep sep ps) = ps := by
  induction ps with
  | nil => exact absurd rfl hne
  | cons p rest ih =>
      cases rest with
      | nil =>
          simp only [joinSep]
          exact splitOn_of_not_mem (h p (List.mem_cons_self p []))
      | cons q qs =>
          simp only [joinSep]
          rw [splitOn_append_sep _ (h p (List.mem_cons_self p _))]
          rw [ih (by simp) (fun r hr => h r (List.mem_cons_of_mem p hr))]

/-! ### Facts about decimal printing and `atoi` -/

/-- The ten ASCII digit characters. -/
def digitChars : List Char :=
  ['0', '1', '2', '3', '4', '5', '6', '7', '8', '9']

theorem digToNat_digChar {d : Nat} (h : d < 10) :
    digToNat (digChar d) = some d := by
  interval_cases d <;> decide

theorem digChar_mem_digitChars {d : Nat} (h : d < 10) :
    digChar d ∈ digitChars := by
  interval_cases d <;> decide

theorem natDigits_ne_nil (n : Nat) : natDigits n ≠ [] := by
  unfold natDigits
  split <;> simp

theorem mem_digitChars_of_mem_natDigits {n : Nat} :
    ∀ c ∈ natDigits n, c ∈ digitChars := by
  induction n using Nat.strong_induction_on with
  | _ n ih =>
      unfold natDigits
      split
      · next h =>
          intro c hc
          simp only [List.mem_singleton] at hc
          subst hc
          exact digChar_mem_digitChars h
      · next h =>
          intro c hc
          rcases List.mem_append.mp hc with h1 | h1
          · exact ih (n / 10) (Nat.div_lt_self (by omega) (by omega)) c h1
          · simp only [List.mem_singleton] at h1
            subst h1
            exact digChar_mem_digitChars (Nat.mod_lt _ (by omega))

theorem digitsValAux_append (acc : Nat) (a b : Str) :
    digitsValAux acc (a ++ b) =
      (digitsValAux acc a).bind (fun m => digitsValAux m b) := by
  induction a generalizing acc with
  | nil => simp [digitsValAux]
  | cons c rest ih =>
      simp only [List.cons_append, digitsValAux]
      cases digToNat c with
      | none => rfl
      | some d => exact ih _

theorem digitsValAux_natDigits (n : Nat) :
    ∀ acc, digitsValAux acc (natDigits n) =
      some (acc * 10 ^ (natDigits n).length + n) := by
  induction n using Nat.strong_induction_on with
  | _ n ih =>
      intro acc
      unfold natDigits
      split
      · next h =>
          simp [digitsValAux, digToNat_digChar h]
      · next h =>
          rw [digitsValAux_append, ih (n / 10) (Nat.div_lt_self (by omega) (by omega)) acc]
          simp only [Option.some_bind, digitsValAux,
            digToNat_digChar (Nat.mod_lt n (by omega)), List.length_append,
            List.length_singleton, pow_succ]
          have hdm : n / 10 * 10 + n % 10 = n := Nat.div_add_mod' n 10
          congr 1
          ring_nf
          omega

theorem digitsVal_natDigits (n : Nat) : digitsVal (natDigits n) = some n := by
  unfold digitsVal
  rw [if_neg (by simp [natDigits_ne_nil n])]
  rw [digitsValAux_natDigits n 0]
  simp

theorem mem_of_mem_intRepr {v : Int} :
    ∀ c ∈ intRepr v, c ∈ '-' :: digitChars := by
  unfold intRepr
  split <;> intro c hc
  · rcases List.mem_cons.mp hc with hceq | hc2
    · rw [hceq]; exact List.mem_cons_self _ _
    · exact List.mem_cons_of_mem _ (mem_digitChars_of_mem_natDigits c hc2)
  · exact List.mem_cons_of_mem _ (mem_digitChars_of_mem_natDigits c hc)

theorem semi_not_mem_intRepr (v : Int) : ';' ∉ intRepr v := by
  intro h
  have h2 := mem_of_mem_intRepr ';' h
  revert h2
  decide

theorem colon_not_mem_intRepr (v : Int) : ':' ∉ intRepr v := by
  intro h
  have h2 := mem_of_mem_intRepr ':' h
  revert h2
  decide

theorem atoi_intRepr (v : Int) : atoi (intRepr v) = some v := by
  unfold intRepr
  split
  · next hv =>
      have h1 : atoi ('-' :: natDigits v.natAbs) =
          (digitsVal (natDigits v.natAbs)).map (fun n => -(n : Int)) := rfl
      rw [h1, digitsVal_natDigits]
      show some (-(v.natAbs : Int)) = some v
      rw [Int.natCast_natAbs, abs_of_neg hv, neg_neg]
  · next hv =>
      obtain ⟨c, rest, hc⟩ : ∃ c rest, natDigits v.toNat = c :: rest := by
        cases h : natDigits v.toNat with
        | nil => exact absurd h (natDigits_ne_nil _)
        | cons c rest => exact ⟨c, rest, rfl⟩
      rw [hc]
      have hcd : c ∈ digitChars := by
        apply mem_digitChars_of_mem_natDigits (n := v.toNat) c
        rw [hc]
        exact List.mem_cons_self _ _
      have hne1 : c ≠ '-' := by
        intro he; rw [he] at hcd; revert hcd; decide
      have hne2 : c ≠ '+' := by
        intro he; rw [he] at hcd; revert hcd; decide
      simp only [atoi, if_neg hne1, if_neg hne2]
      rw [← hc, digitsVal_natDigits]
      show some ((v.toNat : Int)) = some v
      rw [Int.toNat_of_nonneg (by omega)]

/-! ### Facts about the association-list map embedding -/

/-- Left-biased choice on `Option Int`. -/
def optOr (a b : Option Int) : Option Int :=
  match a with
  | some v => some v
  | none => b

/-- The loop body `m[pair[0]] = code` folded over a pair list. -/
def foldIns (m : FailingPrefixCode) (ps : List (Str × Int)) : FailingPrefixCode :=
  ps.foldl (fun acc p => insertA acc p.1 p.2) m

theorem lookupA_insertA (m : FailingPrefixCode) (k : Str) (v : Int) (k2 : Str) :
    lookupA (insertA m k v) k2 = if k = k2 then some v else lookupA m k2 := by
  induction m with
  | nil => simp [insertA, lookupA]
  | cons p rest ih =>
      simp only [insertA]
      by_cases h1 : p.1 = k
      · rw [if_pos h1]
        simp only [lookupA]
        by_cases h2 : k = k2
        · simp [h2]
        · rw [if_neg h2, if_neg h2, if_neg (by rw [h1]; exact h2)]
      · rw [if_neg h1]
        simp only [lookupA, ih]
        by_cases h2 : p.1 = k2
        · rw [if_pos h2, if_pos h2, if_neg (fun he => h1 (h2.trans he.symm))]
        · rw [if_neg h2, if_neg h2]

theorem mem_insertA {m : FailingPrefixCode} {k : Str} {v : Int} {p : Str × Int}
    (h : p ∈ insertA m k v) : p = (k, v) ∨ p ∈ m := by
  induction m with
  | nil => simpa [insertA] using h
  | cons q rest ih =>
      simp only [insertA] at h
      by_cases h1 : q.1 = k
      · rw [if_pos h1] at h
        rcases List.mem_cons.mp h with h2 | h2
        · exact Or.inl h2
        · exact Or.inr (List.mem_cons_of_mem q h2)
      · rw [if_neg h1] at h
        rcases List.mem_cons.mp h with h2 | h2
        · exact Or.inr (h2 ▸ List.mem_cons_self q rest)
        · rcases ih h2 with h3 | h3
          · exact Or.inl h3
          · exact Or.inr (List.mem_cons_of_mem q h3)

theorem keys_insertA (m : FailingPrefixCode) (k : Str) (v : Int) :
    (insertA m k v).map Prod.fst =
      if k ∈ m.map Prod.fst then m.map Prod.fst
      else m.map Prod.fst ++ [k] := by
  induction m with
  | nil => simp [insertA]
  | cons p rest ih =>
      simp only [insertA, List.map_cons]
      by_cases h1 : p.1 = k
      · rw [if_pos h1]
        rw [if_pos (by rw [h1]; exact List.mem_cons_self _ _)]
        simp [h1]
      · rw [if_neg h1]
        simp only [List.map_cons, ih]
        by_cases h2 : k ∈ rest.map Prod.fst
        · rw [if_pos h2, if_pos (List.mem_cons_of_mem _ h2)]
        · rw [if_neg h2,
            if_neg (by
              intro hk
              rcases List.mem_cons.mp hk with h3 | h3
              · exact h1 h3.symm
              · exact h2 h3)]
          simp

theorem nodup_keys_insertA {m : FailingPrefixCode} {k : Str} {v : Int}
    (h : (m.map Prod.fst).Nodup) : ((insertA m k v).map Prod.fst).Nodup := by
  rw [keys_insertA]
  split
  · exact h
  · next hnot =>
      apply ((List.perm_append_singleton k (m.map Prod.fst)).nodup_iff).mpr
      exact List.Nodup.cons hnot h

theorem insertA_of_not_mem {m : FailingPrefixCode} {k : Str} (v : Int)
    (h : k ∉ m.map Prod.fst) : insertA m k v = m ++ [(k, v)] := by
  induction m with
  | nil => rfl
  | cons p rest ih =>
      simp only [List.map_cons, List.mem_cons] at h
      push_neg at h
      simp only [insertA]
      rw [if_neg (fun he => h.1 he.symm)]
      rw [ih h.2]
      rfl

theorem lookupA_append (a b : FailingPrefixCode) (k : Str) :
    lookupA (a ++ b) k = optOr (lookupA a k) (lookupA b k) := by
  induction a with
  | nil => simp [lookupA, optOr]
  | cons p rest ih =>
      simp only [List.cons_append, lookupA]
      by_cases h1 : p.1 = k
      · simp [h1, optOr]
      · simp only [if_neg h1]
        exact ih

theorem optOr_assoc (a b c : Option Int) :
    optOr (optOr a b) c = optOr a (optOr b c) := by
  cases a <;> simp [optOr]

theorem lookupA_foldIns (ps : List (Str × Int)) :
    ∀ m k, lookupA (foldIns m ps) k =
      optOr (lookupA ps.reverse k) (lookupA m k) := by
  induction ps with
  | nil => intro m k; simp [foldIns, lookupA, optOr]
  | cons p rest ih =>
      intro m k
      simp only [foldIns, List.foldl_cons, List.reverse_cons]
      rw [show (List.foldl (fun acc q => insertA acc q.1 q.2)
            (insertA m p.1 p.2) rest) = foldIns (insertA m p.1 p.2) rest from rfl]
      rw [ih, lookupA_append, optOr_assoc, lookupA_insertA]
      congr 1
      simp only [lookupA]
      by_cases h1 : p.1 = k <;> simp [h1, optOr]

theorem mem_foldIns {ps : List (Str × Int)} :
    ∀ {m p}, p ∈ foldIns m ps → p ∈ m ∨ p ∈ ps := by
  induction ps with
  | nil => intro m p h; exact Or.inl h
  | cons q rest ih =>
      intro m p h
      rcases ih h with h1 | h1
      · rcases mem_insertA h1 with h2 | h2
        · right
          rw [h2]
          exact List.mem_cons_self _ _
        · exact Or.inl h2
      · exact Or.inr (List.mem_cons_of_mem _ h1)

theorem nodup_keys_foldIns {ps : List (Str × Int)} :
    ∀ {m}, (m.map Prod.fst).Nodup → ((foldIns m ps).map Prod.fst).Nodup := by
  induction ps with
  | nil => intro m h; exact h
  | cons q rest ih =>
      intro m h
      exact ih (nodup_keys_insertA h)

theorem foldIns_of_disjoint {ps : List (Str × Int)} :
    ∀ {m}, (∀ p ∈ ps, p.1 ∉ m.map Prod.fst) → (ps.map Prod.fst).Nodup →
      foldIns m ps = m ++ ps := by
  induction ps with
  | nil => intro m _ _; simp [foldIns]
  | cons q rest ih =>
      intro m hdis hnd
      simp only [List.map_cons, List.nodup_cons] at hnd
      have hq : q.1 ∉ m.map Prod.fst := hdis q (List.mem_cons_self q rest)
      have step : foldIns m (q :: rest) = foldIns (insertA m q.1 q.2) rest := rfl
      rw [step, insertA_of_not_mem q.2 hq]
      rw [ih (fun p hp => by
            intro hpk
            rw [List.map_append] at hpk
            rcases List.mem_append.mp hpk with h1 | h1
            · exact hdis p (List.mem_cons_of_mem q hp) h1
            · simp only [List.map_cons, List.map_nil, List.mem_singleton] at h1
              exact hnd.1 (h1 ▸ List.mem_map_of_mem Prod.fst hp))
          hnd.2]
      simp

theorem lookupA_eq_some_iff {m : FailingPrefixCode}
    (h : (m.map Prod.fst).Nodup) (k : Str) (v : Int) :
    lookupA m k = some v ↔ (k, v) ∈ m := by
  induction m with
  | nil => simp [lookupA]
  | cons p rest ih =>
      simp only [List.map_cons, List.nodup_cons] at h
      simp only [lookupA, List.mem_cons]
      by_cases h1 : p.1 = k
      · rw [if_pos h1]
        constructor
        · intro hv
          have hv2 : p.2 = v := by injection hv
          left
          rw [← h1, ← hv2]
        · rintro (h2 | h2)
          · rw [← h2]
          · exfalso
            apply h.1
            rw [h1]
            exact List.mem_map_of_mem Prod.fst h2
      · rw [if_neg h1, ih h.2]
        constructor
        · intro h2; exact Or.inr h2
        · rintro (h2 | h2)
          · exfalso; apply h1; rw [← h2]
          · exact h2

theorem lookupA_eq_none_iff (m : FailingPrefixCode) (k : Str) :
    lookupA m k = none ↔ k ∉ m.map Prod.fst := by
  induction m with
  | nil => simp [lookupA]
  | cons p rest ih =>
      simp only [lookupA, List.map_cons, List.mem_cons]
      by_cases h1 : p.1 = k
      · simp [h1]
      · rw [if_neg h1, ih]
        constructor
        · intro h2 h3
          rcases h3 with h3 | h3
          · exact h1 h3.symm
          · exact h2 h3
        · intro h2 h3
          exact h2 (Or.inr h3)

theorem lookupA_perm {m m2 : FailingPrefixCode}
    (h : (m.map Prod.fst).Nodup) (hp : m.Perm m2) (k : Str) :
    lookupA m k = lookupA m2 k := by
  have h2 : (m2.map Prod.fst).Nodup := ((hp.map Prod.fst).nodup_iff).mp h
  cases hv : lookupA m k with
  | some v =>
      have hm := (lookupA_eq_some_iff h k v).mp hv
      exact ((lookupA_eq_some_iff h2 k v).mpr (hp.mem_iff.mp hm)).symm
  | none =>
      have hm := (lookupA_eq_none_iff m k).mp hv
      symm
      rw [lookupA_eq_none_iff]
      intro hk
      exact hm (((hp.map Prod.fst).mem_iff).mpr hk)

/-! ### Facts about `buildTable`, `Set` and `Parse` -/

theorem parseEntries_mem_src {es : List Str} {ps : List (Str × Int)}
    (h : parseEntries es = some ps) :
    ∀ q ∈ ps, ∃ e ∈ es, ∃ cs, splitOn ':' e = [q.1, cs] ∧ atoi cs = some q.2 := by
  induction es generalizing ps with
  | nil =>
      simp [parseEntries] at h
      subst h
      intro q hq
      simp at hq
  | cons e rest ih =>
      simp only [parseEntries] at h
      cases hsp : splitOn ':' e with
      | nil => rw [hsp] at h; simp at h
      | cons a l =>
          cases l with
          | nil => rw [hsp] at h; simp at h
          | cons b l2 =>
              cases l2 with
              | cons c l3 => rw [hsp] at h; simp at h
              | nil =>
                  rw [hsp] at h
                  simp only [] at h
                  cases hat : atoi b with
                  | none => rw [hat] at h; simp at h
                  | some code =>
                      rw [hat] at h
                      simp only [] at h
                      cases hrest : parseEntries rest with
                      | none => rw [hrest] at h; simp at h
                      | some qs =>
                          rw [hrest] at h
                          simp only [Option.map_some'] at h
                          obtain hps : (a, code) :: qs = ps := by injection h
                          intro q hq
                          rw [← hps] at hq
                          rcases List.mem_cons.mp hq with hq1 | hq1
                          · refine ⟨e, List.mem_cons_self e rest, b, ?_, ?_⟩
                            · rw [hsp, hq1]
                            · rw [hat, hq1]
                          · obtain ⟨e2, he2, cs2, hsp2, hat2⟩ := ih hrest q hq1
                            exact ⟨e2, List.mem_cons_of_mem e he2, cs2, hsp2, hat2⟩

theorem buildTableAux_ok {es : List Str} :
    ∀ {m t}, buildTableAux m es = .ok t →
      ∃ ps, parseEntries es = some ps ∧ t = foldIns m ps := by
  induction es with
  | nil =>
      intro m t h
      simp only [buildTableAux] at h
      obtain ht : m = t := by injection h
      exact ⟨[], rfl, by simp [foldIns, ht]⟩
  | cons e rest ih =>
      intro m t h
      simp only [buildTableAux] at h
      cases hs : splitOn ':' e with
      | nil => rw [hs] at h; simp at h
      | cons a l =>
          cases l with
          | nil => rw [hs] at h; simp at h
          | cons b l2 =>
              cases l2 with
              | cons c l3 => rw [hs] at h; simp at h
              | nil =>
                  rw [hs] at h
                  simp only [] at h
                  cases hat : atoi b with
                  | none => rw [hat] at h; simp at h
                  | some code =>
                      rw [hat] at h
                      simp only [] at h
                      obtain ⟨ps, hps, ht⟩ := ih h
                      refine ⟨(a, code) :: ps, ?_, ?_⟩
                      · simp [parseEntries, hs, hat, hps]
                      · rw [ht]; rfl

theorem buildTableAux_entry_ok {es : List Str} :
    ∀ {m t}, buildTableAux m es = .ok t → ∀ e ∈ es,
      ∃ k cs code, splitOn ':' e = [k, cs] ∧ atoi cs = some code := by
  induction es with
  | nil => intro m t _ e he; simp at he
  | cons a rest ih =>
      intro m t h e he
      simp only [buildTableAux] at h
      cases hs : splitOn ':' a with
      | nil => rw [hs] at h; simp at h
      | cons x l =>
          cases l with
          | nil => rw [hs] at h; simp at h
          | cons y l2 =>
              cases l2 with
              | cons z l3 => rw [hs] at h; simp at h
              | nil =>
                  rw [hs] at h
                  simp only [] at h
                  cases hat : atoi y with
                  | none => rw [hat] at h; simp at h
                  | some code =>
                      rw [hat] at h
                      simp only [] at h
                      rcases List.mem_cons.mp he with he1 | he1
                      · refine ⟨x, y, code, ?_, hat⟩
                        rw [he1]
                        exact hs
                      · exact ih h e he1

theorem Parse_eq_some_iff {x : Str} {t : FailingPrefixCode} :
    FailingPrefixCode.Parse x = some t ↔
      (x = [] ∧ t = []) ∨ (x ≠ [] ∧ buildTable (splitOn ';' x) = .ok t) := by
  unfold FailingPrefixCode.Parse FailingPrefixCode.Set
  by_cases hx : x = []
  · simp [hx, eq_comm]
  · rw [if_neg hx]
    cases hb : buildTable (splitOn ';' x) with
    | ok m => simp [hx, eq_comm]
    | error e => simp [hx]

theorem Parse_keys_source {x : Str} {t : FailingPrefixCode}
    (h : FailingPrefixCode.Parse x = some t) :
    ∀ p ∈ t, ∃ e ∈ splitOn ';' x, ∃ cs, splitOn ':' e = [p.1, cs] := by
  rcases Parse_eq_some_iff.mp h with ⟨_, ht⟩ | ⟨_, hb⟩
  · intro p hp; rw [ht] at hp; simp at hp
  · intro p hp
    obtain ⟨ps, hps, ht⟩ := buildTableAux_ok hb
    rw [ht] at hp
    rcases mem_foldIns hp with h1 | h1
    · simp at h1
    · obtain ⟨e, he, cs, hsp, _⟩ := parseEntries_mem_src hps p h1
      exact ⟨e, he, cs, hsp⟩

theorem Parse_keys_clean {x : Str} {t : FailingPrefixCode}
    (h : FailingPrefixCode.Parse x = some t) :
    ∀ p ∈ t, ';' ∉ p.1 ∧ ':' ∉ p.1 := by
  intro p hp
  obtain ⟨e, he, cs, hsp⟩ := Parse_keys_source h p hp
  have hk : p.1 ∈ splitOn ':' e := by rw [hsp]; exact List.mem_cons_self _ _
  constructor
  · intro hc
    have h2 := chars_of_mem_splitOn hk ';' hc
    exact (chars_of_mem_splitOn he ';' h2.1).2 rfl
  · intro hc
    exact (chars_of_mem_splitOn hk ':' hc).2 rfl

theorem Parse_keys_nodup {x : Str} {t : FailingPrefixCode}
    (h : FailingPrefixCode.Parse x = some t) :
    (t.map Prod.fst).Nodup := by
  rcases Parse_eq_some_iff.mp h with ⟨_, ht⟩ | ⟨_, hb⟩
  · rw [ht]; exact List.nodup_nil
  · obtain ⟨ps, _, ht⟩ := buildTableAux_ok hb
    rw [ht]
    exact nodup_keys_foldIns (by simp)

theorem buildTableAux_entryStr {u : List (Str × Int)}
    (hcl : ∀ p ∈ u, ':' ∉ p.1) :
    ∀ m, buildTableAux m (u.map entryStr) = .ok (foldIns m u) := by
  induction u with
  | nil => intro m; simp [buildTableAux, foldIns]
  | cons p rest ih =>
      intro m
      have hstep : splitOn ':' (entryStr p) = [p.1, intRepr p.2] := by
        unfold entryStr
        rw [splitOn_append_sep _ (hcl p (List.mem_cons_self p rest))]
        rw [splitOn_of_not_mem (colon_not_mem_intRepr p.2)]
      simp only [List.map_cons, buildTableAux, hstep, atoi_intRepr]
      exact ih (fun q hq => hcl q (List.mem_cons_of_mem p hq)) _

theorem entryStr_semi_free {p : Str × Int} (hs : ';' ∉ p.1) :
    ';' ∉ entryStr p := by
  unfold entryStr
  intro hc
  rcases List.mem_append.mp hc with h1 | h1
  · exact hs h1
  · rcases List.mem_cons.mp h1 with h2 | h2
    · exact absurd h2 (by decide)
    · exact semi_not_mem_intRepr p.2 h2

theorem optOr_none_right (a : Option Int) : optOr a none = a := by
  cases a <;> rfl

/-- `FailingPrefixCode.String` of a non-empty table is a non-empty string
(every entry contains at least the `:` separator). -/
theorem String_ne_nil {u : FailingPrefixCode} (hu : u ≠ []) :
    FailingPrefixCode.String u ≠ [] := by
  cases u with
  | nil => exact absurd rfl hu
  | cons p rest =>
      unfold FailingPrefixCode.String
      cases rest with
      | nil => simp [joinSep, entryStr]
      | cons q qs => simp [joinSep, entryStr]

/-! ### Facts about the handler stream loop and `storeBody` -/

/-- Every exit of the current handler's streaming loop sets
`errorTransfer = true`: each of the three `break`s assigns it, and there is
no other way out of the `for`. -/
theorem streamLoop_exits_with_error (fr ftr : Int) (evs : List Main1.ChunkEv) :
    ∀ acc out, Main1.streamLoop fr ftr acc evs = some out → out.2 = true := by
  induction evs with
  | nil =>
      intro acc out h
      simp [Main1.streamLoop] at h
  | cons ev rest ih =>
      intro acc out h
      simp only [Main1.streamLoop] at h
      split at h
      · injection h with h2
        rw [← h2]
      · split at h
        · injection h with h2
          rw [← h2]
        · split at h
          · injection h with h2
            rw [← h2]
          · exact ih _ _ h

theorem copyBuffer_snd (reads : List Store.ReadEv) :
    ∀ dst, (Store.copyBuffer dst reads).2 = Store.hasReadFail reads := by
  induction reads with
  | nil => intro dst; rfl
  | cons ev rest ih =>
      intro dst
      cases ev with
      | chunk bs => exact ih (dst ++ bs)
      | fail => rfl

theorem copyBuffer_fst_of_no_fail (reads : List Store.ReadEv) :
    ∀ dst, Store.hasReadFail reads = false →
      (Store.copyBuffer dst reads).1 = dst ++ Store.bodyBytes reads := by
  induction reads with
  | nil => intro dst _; simp [Store.copyBuffer, Store.bodyBytes]
  | cons ev rest ih =>
      intro dst h
      cases ev with
      | chunk bs =>
          simp only [Store.copyBuffer, Store.bodyBytes]
          rw [ih (dst ++ bs) h]
          simp
      | fail => simp [Store.hasReadFail] at h

/-! ### Claim theorems -/

/-- C6: parse of the prefix-table specification string: the empty string
yields an empty table and no error; a non-empty string is split on `;` into
entries and each entry on `:` into exactly two fields, any entry without
exactly two fields or whose second field is not an integer yields an error;
when the same prefix occurs in several entries, the last occurrence's code
is the one stored (lookup in the parsed table agrees with lookup in the
reversed entry sequence). -/
theorem C6_parse_grammar :
    (FailingPrefixCode.Parse [] = some []) ∧
    (∀ x : Str, x ≠ [] → ∀ e ∈ splitOn ';' x,
        ((splitOn ':' e).length ≠ 2 ∨
          ∃ k cs, splitOn ':' e = [k, cs] ∧ atoi cs = none) →
        FailingPrefixCode.Parse x = none) ∧
    (∀ x : Str, ∀ t : FailingPrefixCode,
        FailingPrefixCode.Parse x = some t → x ≠ [] →
        ∃ ps, parseEntries (splitOn ';' x) = some ps ∧
          ∀ k, lookupA t k = lookupA ps.reverse k) := by
  refine ⟨by decide, ?_, ?_⟩
  · intro x hx e he hbad
    cases hp : FailingPrefixCode.Parse x with
    | none => rfl
    | some t =>
        exfalso
        rcases Parse_eq_some_iff.mp hp with ⟨hx2, _⟩ | ⟨_, hb⟩
        · exact hx hx2
        · obtain ⟨k, cs, code, hsp, hat⟩ := buildTableAux_entry_ok hb e he
          rcases hbad with hbad | ⟨k2, cs2, hsp2, hat2⟩
          · apply hbad
            rw [hsp]
            rfl
          · rw [hsp] at hsp2
            obtain ⟨h1, h2⟩ : k = k2 ∧ cs = cs2 := by
              injection hsp2 with ha hb2
              injection hb2 with hb3
              exact ⟨ha, hb3⟩
            rw [← h2] at hat2
            rw [hat] at hat2
            exact Option.noConfusion hat2
  · intro x t hp hx
    rcases Parse_eq_some_iff.mp hp with ⟨hx2, _⟩ | ⟨_, hb⟩
    · exact absurd hx2 hx
    · obtain ⟨ps, hps, ht⟩ := buildTableAux_ok hb
      refine ⟨ps, hps, fun k => ?_⟩
      rw [ht, lookupA_foldIns]
      simp only [lookupA]
      exact (optOr_none_right _).symm ▸ rfl

/-- Witness for C6 at concrete inputs: `Parse "a"` (an entry without a `:`)
errors, and `Parse "a:1;a:2"` keeps the last code for the duplicated
prefix. -/
theorem C6_parse_grammar_witness :
    FailingPrefixCode.Parse ['a'] = none ∧
      (∃ ps, parseEntries (splitOn ';' ['a', ':', '1', ';', 'a', ':', '2']) = some ps ∧
        ∀ k, lookupA [(['a'], (2 : Int))] k = lookupA ps.reverse k) :=
  ⟨C6_parse_grammar.2.1 ['a'] (by decide) ['a'] (by decide) (Or.inl (by decide)),
   C6_parse_grammar.2.2 ['a', ':', '1', ';', 'a', ':', '2'] [(['a'], 2)]
     (by decide) (by decide)⟩

/-- C7: for every specification string accepted by `Set`/`Parse` producing
table `t`, serializing any iteration order `u` of `t` with `String` and
parsing the result again succeeds and yields exactly the same
prefix-to-code pairs as `t` (order-independent: lookups agree). -/
theorem C7_string_parse_roundtrip (s : Str) (t u : FailingPrefixCode)
    (h : FailingPrefixCode.Parse s = some t) (hperm : t.Perm u) :
    FailingPrefixCode.Parse (FailingPrefixCode.String u) = some u ∧
      ∀ k, lookupA u k = lookupA t k := by
  have hclean_t := Parse_keys_clean h
  have hnodup_t := Parse_keys_nodup h
  have hnodup_u : (u.map Prod.fst).Nodup :=
    ((hperm.map Prod.fst).nodup_iff).mp hnodup_t
  have hclean_u : ∀ p ∈ u, ';' ∉ p.1 ∧ ':' ∉ p.1 :=
    fun p hp => hclean_t p (hperm.mem_iff.mpr hp)
  constructor
  · by_cases hu : u = []
    · rw [hu]
      decide
    · have hsne := String_ne_nil hu
      have hsplit : splitOn ';' (FailingPrefixCode.String u) = u.map entryStr := by
        unfold FailingPrefixCode.String
        apply splitOn_joinSep
        · simp [hu]
        · intro p hp
          obtain ⟨q, hq, hqe⟩ := List.mem_map.mp hp
          rw [← hqe]
          exact entryStr_semi_free (hclean_u q hq).1
      have hbuild : buildTable (splitOn ';' (FailingPrefixCode.String u)) =
          .ok (foldIns [] u) := by
        rw [hsplit]
        exact buildTableAux_entryStr (fun p hp => (hclean_u p hp).2) []
      have hfold : foldIns ([] : FailingPrefixCode) u = u := by
        rw [foldIns_of_disjoint (fun p _ => by simp) hnodup_u]
        rfl
      apply Parse_eq_some_iff.mpr
      right
      rw [hbuild, hfold]
      exact ⟨hsne, rfl⟩
  · intro k
    exact (lookupA_perm hnodup_t hperm k).symm

/-- Witness for C7 at a concrete input: parse `"b:2;a:1"`, reverse the
table's iteration order, serialize and reparse. -/
theorem C7_string_parse_roundtrip_witness :
    FailingPrefixCode.Parse
        (FailingPrefixCode.String [(['a'], (1 : Int)), (['b'], (2 : Int))]) =
      some [(['a'], 1), (['b'], 2)] ∧
    ∀ k, lookupA [(['a'], (1 : Int)), (['b'], (2 : Int))] k =
      lookupA [(['b'], 2), (['a'], 1)] k :=
  C7_string_parse_roundtrip ['b', ':', '2', ';', 'a', ':', '1']
    [(['b'], 2), (['a'], 1)] [(['a'], 1), (['b'], 2)]
    (by decide) (by decide)

/-- C9 counterexample: `Parse ":5"` succeeds and its table's single key is
the empty string, so not every key of a successfully parsed table is
non-empty. -/
theorem C9_counterexample :
    FailingPrefixCode.Parse [':', '5'] = some [(([] : Str), (5 : Int))] ∧
      ¬ (∀ p ∈ [(([] : Str), (5 : Int))], p.1 ≠ ([] : Str)) := by
  constructor
  · decide
  · intro hall
    exact hall ([], 5) (List.mem_cons_self _ _) rfl

/-- C9 (amended): a key of a table produced by a successful `Parse` may be
empty; what every key does satisfy is that it contains neither the entry
separator `;` nor the field separator `:`. -/
theorem C9_parse_keys_separator_free (x : Str) (t : FailingPrefixCode)
    (h : FailingPrefixCode.Parse x = some t) :
    ∀ p ∈ t, ';' ∉ p.1 ∧ ':' ∉ p.1 :=
  Parse_keys_clean h

/-- Witness for C9 (amended) at a concrete input. -/
theorem C9_parse_keys_separator_free_witness :
    ';' ∉ (['a'] : Str) ∧ ':' ∉ (['a'] : Str) :=
  C9_parse_keys_separator_free ['a', ':', '1'] [(['a'], 1)] (by decide)
    (['a'], 1) (List.mem_cons_self _ _)

/-- C10: `Set` is atomic on error: whenever it reports an error, the
receiver table it returns is exactly the one it was given (the partially
built local map is discarded, `*fp = m` being the only receiver write). -/
theorem C10_set_receiver_unchanged_on_error (fp : FailingPrefixCode)
    (x : Str) (e : SetErr)
    (h : (FailingPrefixCode.Set fp x).2 = some e) :
    (FailingPrefixCode.Set fp x).1 = fp := by
  unfold FailingPrefixCode.Set at h ⊢
  by_cases hx : x = []
  · rw [if_pos hx] at h
    exact absurd h (by simp)
  · rw [if_neg hx] at h ⊢
    cases hb : buildTable (splitOn ';' x) with
    | ok m =>
        rw [hb] at h
        simp at h
    | error e2 => rfl

/-- Witness for C10 at a concrete input: `Set` on `"b"` (no colon) errors
and returns the original table. -/
theorem C10_set_receiver_unchanged_on_error_witness :
    (FailingPrefixCode.Set [(['q'], (7 : Int))] ['b']).1 = [(['q'], (7 : Int))] :=
  C10_set_receiver_unchanged_on_error [(['q'], 7)] ['b'] SetErr.decodeErr
    (by decide)

/-- C1 (code evaluation at the failing input): a response stream whose read
returns `io.EOF` with every client write succeeding and the transfer check
never firing still ends with `errorTransfer = true` and the outcome logged
with the transfer-error flag `true` at Warn level — the loop treats `io.EOF`
like any read error, so the claimed `COMPLETED_OK` exit (flag `false`) is
unreachable. -/
theorem C1_eof_flagged_as_transfer_error :
    (Main1.mainHandler ⟨0, 0, []⟩ (fun _ => 0)
        ⟨"GET", ['/'], 0, false,
         some ⟨200, [⟨[], Main1.ReadRes.eof, true, 0⟩]⟩⟩).finalLog =
      some ⟨"GET", true, false⟩ ∧
    (Main1.mainHandler ⟨0, 0, []⟩ (fun _ => 0)
        ⟨"GET", ['/'], 0, false,
         some ⟨200, [⟨[], Main1.ReadRes.eof, true, 0⟩]⟩⟩).exitSt =
      Main1.HExit.streamed [] true := by
  constructor <;> rfl

/-- C2 (code evaluation): `shouldFail` compares the random draw against the
global `failureRate` instead of its `fRate` argument, so the per-chunk
transfer-abort probability is not `failureTransferRate/100`: with
`failure-transfer-rate = 50` and `failure-rate = 0` no draw in `[0,100)`
ever aborts, while with `failure-rate = 99` the draw `60` (≥ 50) does. -/
theorem C2_transfer_rate_ignored :
    (∀ d : Fin 100, Main1.shouldFail 0 50 d.val = false) ∧
      Main1.shouldFail 99 50 60 = true := by
  decide

/-- C3 (code evaluation): in the variant handler, when
`http.DefaultClient.Do` fails the handler writes 500 and then, lacking the
`return`, panics dereferencing the nil response in
`defer resp.Body.Close()` — it does not terminate normally. -/
theorem C3_do_error_panics :
    Main2.mainHandler ⟨0, []⟩ ⟨['/'], false, false, none⟩ =
      ⟨[500], Main2.HExit.panicNilDeref⟩ := by
  decide

/-- C4: both handler variants call `WriteHeader` exactly once on every path
(global failure, prefix failure, request-construction failure,
upstream-call failure — where the variant panics before any second write —
and the streaming path). -/
theorem C4_writeHeader_exactly_once :
    (∀ (cfg : Main1.Config) (cnt : MethodCounters) (inp : Main1.HInput),
        (Main1.mainHandler cfg cnt inp).writes.length = 1) ∧
      (∀ (cfg : Main2.Config) (inp : Main2.HInput),
        (Main2.mainHandler cfg inp).writes.length = 1) := by
  constructor
  · intro cfg cnt inp
    simp only [Main1.mainHandler]
    repeat (first | rfl | split)
  · intro cfg inp
    simp only [Main2.mainHandler]
    repeat (first | rfl | split)

/-- C5: in the current handler, a request failed by the global gate gets 500
with an empty body and unchanged counters; a request failed by the prefix
gate gets that prefix's configured code with an empty body and unchanged
counters; a request passing both gates increments exactly its method's
counter by 1 (modulo the `uint64` wrap). -/
theorem C5_gates_and_counters (cfg : Main1.Config) (cnt : MethodCounters)
    (inp : Main1.HInput) :
    (Main1.shouldFail cfg.failureRate cfg.failureRate inp.globalDraw = true →
       (Main1.mainHandler cfg cnt inp).writes = [500] ∧
       (Main1.mainHandler cfg cnt inp).body = [] ∧
       (Main1.mainHandler cfg cnt inp).counters = cnt) ∧
    (Main1.shouldFail cfg.failureRate cfg.failureRate inp.globalDraw = false →
     (Main1.shouldFailByPrefix cfg.failWithPrefix inp.path).2 = true →
       (Main1.mainHandler cfg cnt inp).writes =
         [(Main1.shouldFailByPrefix cfg.failWithPrefix inp.path).1] ∧
       (Main1.mainHandler cfg cnt inp).body = [] ∧
       (Main1.mainHandler cfg cnt inp).counters = cnt) ∧
    (Main1.shouldFail cfg.failureRate cfg.failureRate inp.globalDraw = false →
     (Main1.shouldFailByPrefix cfg.failWithPrefix inp.path).2 = false →
       (Main1.mainHandler cfg cnt inp).counters =
         MethodCounters.Add cnt inp.method 1 ∧
       (cnt inp.method + 1 < 2 ^ 64 →
         (Main1.mainHandler cfg cnt inp).counters inp.method =
           cnt inp.method + 1) ∧
       (∀ m, m ≠ inp.method →
         (Main1.mainHandler cfg cnt inp).counters m = cnt m)) := by
  refine ⟨?_, ?_, ?_⟩
  · intro h1
    simp [Main1.mainHandler, h1]
  · intro h1 h2
    obtain ⟨c, hc⟩ : ∃ c,
        Main1.shouldFailByPrefix cfg.failWithPrefix inp.path = (c, true) := by
      cases hm : Main1.shouldFailByPrefix cfg.failWithPrefix inp.path with
      | mk a b =>
          cases b
          · rw [hm] at h2; simp at h2
          · exact ⟨a, rfl⟩
    rw [hc]
    simp [Main1.mainHandler, h1, hc]
  · intro h1 h2
    obtain ⟨c, hc⟩ : ∃ c,
        Main1.shouldFailByPrefix cfg.failWithPrefix inp.path = (c, false) := by
      cases hm : Main1.shouldFailByPrefix cfg.failWithPrefix inp.path with
      | mk a b =>
          cases b
          · exact ⟨a, rfl⟩
          · rw [hm] at h2; simp at h2
    have hcnt : (Main1.mainHandler cfg cnt inp).counters =
        MethodCounters.Add cnt inp.method 1 := by
      simp only [Main1.mainHandler, h1, hc, Bool.false_eq_true, if_false]
      repeat' (first | rfl | split)
    refine ⟨hcnt, ?_, ?_⟩
    · intro hlt
      rw [hcnt]
      simp only [MethodCounters.Add, if_pos rfl]
      exact Nat.mod_eq_of_lt hlt
    · intro m hm
      rw [hcnt]
      simp only [MethodCounters.Add]
      rw [if_neg hm]

/-- Witness for C5 at a concrete input: with the gates passing, the `GET`
counter goes from 0 to 1. -/
theorem C5_gates_and_counters_witness :
    (Main1.mainHandler ⟨0, 0, []⟩ (fun _ => 0)
        ⟨"GET", ['/'], 0, false, none⟩).counters "GET" = 1 :=
  ((C5_gates_and_counters ⟨0, 0, []⟩ (fun _ => 0)
      ⟨"GET", ['/'], 0, false, none⟩).2.2 rfl rfl).2.1 (by norm_num)

/-- C8: `storeBody` on success returns the byte count of the full inbound
body together with a file holding exactly those bytes, fsynced and rewound
to offset 0; on a copy (read) failure or a sync failure it closes and
removes the partial temporary file and returns an error; the copy buffer is
1 MiB. -/
theorem C8_storeBody_staging (inp : Store.StoreInput) :
    (∀ n f, Store.storeBody inp = .ok (n, f) →
        n = ((Store.bodyBytes inp.reads).length : Int) ∧
        f.content = Store.bodyBytes inp.reads ∧
        f.offset = 0 ∧ f.synced = true ∧ f.closed = false ∧
        f.removed = false) ∧
    (inp.createFails = false →
      (Store.hasReadFail inp.reads = true ∨ inp.syncFails = true) →
      ∃ f, Store.storeBody inp = .error (some f) ∧
        f.closed = true ∧ f.removed = true) ∧
    Store.storeBodyBufLen = 1024 * 1024 := by
  refine ⟨?_, ?_, rfl⟩
  · intro n f h
    unfold Store.storeBody at h
    by_cases hcr : inp.createFails
    · rw [if_pos hcr] at h
      exact absurd h (by simp)
    · rw [if_neg hcr] at h
      simp only [] at h
      cases hfl : Store.hasReadFail inp.reads with
      | true =>
          rw [(copyBuffer_snd inp.reads []).trans hfl, if_pos rfl] at h
          exact absurd h (by simp)
      | false =>
          rw [(copyBuffer_snd inp.reads []).trans hfl,
            if_neg Bool.false_ne_true] at h
          by_cases hsy : inp.syncFails
          · rw [if_pos hsy] at h
            exact absurd h (by simp)
          · rw [if_neg hsy] at h
            by_cases hsk : inp.seekFails
            · rw [if_pos hsk] at h
              exact absurd h (by simp)
            · rw [if_neg hsk] at h
              have h1 : (((Store.copyBuffer [] inp.reads).1.length : Int),
                  ({ content := (Store.copyBuffer [] inp.reads).1,
                     offset := 0, synced := true, closed := false,
                     removed := false } : Store.TempFile)) = (n, f) := by
                injection h
              rw [Prod.mk.injEq] at h1
              obtain ⟨hn, hf⟩ := h1
              have hcp := copyBuffer_fst_of_no_fail inp.reads [] hfl
              rw [List.nil_append] at hcp
              refine ⟨?_, ?_, ?_, ?_, ?_, ?_⟩
              · rw [← hn, hcp]
              · rw [← hf]
                simp only []
                exact hcp
              · rw [← hf]
              · rw [← hf]
              · rw [← hf]
              · rw [← hf]
  · intro hcr hbad
    unfold Store.storeBody
    rw [if_neg (by rw [hcr]; exact Bool.false_ne_true)]
    simp only []
    rcases hbad with hbad | hbad
    · rw [(copyBuffer_snd inp.reads []).trans hbad, if_pos rfl]
      exact ⟨_, rfl, rfl, rfl⟩
    · cases hfl : Store.hasReadFail inp.reads with
      | true =>
          rw [(copyBuffer_snd inp.reads []).trans hfl, if_pos rfl]
          exact ⟨_, rfl, rfl, rfl⟩
      | false =>
          rw [(copyBuffer_snd inp.reads []).trans hfl,
            if_neg Bool.false_ne_true, if_pos hbad]
          exact ⟨_, rfl, rfl, rfl⟩

/-- Witness for C8 at concrete inputs: staging a two-chunk body succeeds
with count 3, and a read failure leads to a closed-and-removed file. -/
theorem C8_storeBody_staging_witness :
    (3 : Int) =
      ((Store.bodyBytes [Store.ReadEv.chunk [7, 8], Store.ReadEv.chunk [9]]).length : Int) ∧
    ∃ f, Store.storeBody ⟨false, [Store.ReadEv.fail], false, false⟩ =
        .error (some f) ∧ f.closed = true ∧ f.removed = true :=
  ⟨((C8_storeBody_staging ⟨false, [Store.ReadEv.chunk [7, 8], Store.ReadEv.chunk [9]],
      false, false⟩).1 3 ⟨[7, 8, 9], 0, true, false, false⟩ (by rfl)).1,
   (C8_storeBody_staging ⟨false, [Store.ReadEv.fail], false, false⟩).2.1 rfl
     (Or.inl rfl)⟩

end FlokiProxy
